import Mathlib

/-!
MemoryTable (libstorage/MemoryTable.h)

A shallow embedding of the in-memory table of `libstorage/MemoryTable.h`:
the condition evaluator (`processCondition`), the query processor
(`processEntries`), the schema and access guards (`checkField`,
`checkAuthority`), `dump`, `clear`, `empty` and `isHashField`, followed by
theorems about them. The body of `hash` is not part of the header and is not
embedded.

C++ containers are embedded as lists, `std::map` as an association list kept
in ascending key order, `try`/`catch` as `Except`, and `int` as `Int` with the
explicit 32-bit range checks made by the conversion routine.
-/

namespace dev
namespace storage

/-! ## Data model -/

/-- Modelled from the spec: the enumeration `Entry::Status` is declared in
`Table.h`, which is not among the sources; the spec gives an entry a lifecycle
status in {NORMAL, DELETED}. -/
inductive Status where
  | NORMAL
  | DELETED
  deriving DecidableEq, Repr

/-- Modelled from the spec: the class `Entry` is declared in `Table.h`, which is
not among the sources; the spec describes it as a mapping of field name to
string value together with a status. The mapping is kept as an association
list, looked up by its first matching key. -/
structure Entry where
  fields : List (String × String)
  status : Status
  deriving DecidableEq, Repr

/-- Modelled from the spec: `getField(name) -> string (empty if absent)`. -/
def Entry.getField (entry : Entry) (name : String) : String :=
  match entry.fields.lookup name with
  | some value => value
  | none => ""

/-- Modelled from the spec: `getStatus()` reads the status of the entry. -/
def Entry.getStatus (entry : Entry) : Status :=
  entry.status

/-- Modelled from the spec: `Entries` is declared in `Table.h`; the spec
describes an ordered, appendable sequence of `Entry` with `size()`, `get(i)`
and `addEntry(entry)`. -/
abbrev Entries := List Entry

/-- Modelled from the spec: `size()` of an `Entries` collection. -/
def Entries.size (entries : Entries) : Nat :=
  entries.length

/-- Modelled from the spec: `get(i)` of an `Entries` collection; there is no
entry at an index that is not below `size()`. -/
def Entries.get (entries : Entries) (i : Nat) : Option Entry :=
  entries[i]?

/-- Modelled from the spec: `addEntry(entry)` appends at the end. -/
def Entries.addEntry (entries : Entries) (entry : Entry) : Entries :=
  entries ++ [entry]

/-- Modelled from the spec: the operators of `Condition::Op` (declared in
`Table.h`): equal, not-equal, greater-than, greater-or-equal, less-than,
less-or-equal. -/
inductive Op where
  | eq
  | ne
  | gt
  | ge
  | lt
  | le
  deriving DecidableEq, Repr

/-- Modelled from the spec: `Condition` exposes
`getConditions() -> ordered sequence of (field, (operator, value))`. -/
structure Condition where
  m_conditions : List (String × (Op × String))
  deriving DecidableEq, Repr

/-- Modelled from the spec: `getConditions()` of a `Condition`. -/
def Condition.getConditions (condition : Condition) : List (String × (Op × String)) :=
  condition.m_conditions

/-- An account address (`Address`), kept as a number. -/
abbrev Address := Nat

/-- A 256-bit digest (`h256`), kept as a number. -/
abbrev h256 := Nat

/-- Modelled from the spec: `TableInfo` is declared outside the sources; the
spec gives it a table name, an ordered list of authorized writer addresses
(empty = unrestricted) and the declared field names. -/
structure TableInfo where
  name : String
  authorizedAddress : List Address
  fields : List String
  deriving DecidableEq, Repr

/-- Modelled from the spec: `TableData` pairs a `TableInfo` with a flattened
`Entries` collection. -/
structure TableData where
  info : TableInfo
  entries : Entries
  deriving DecidableEq, Repr

/-- The base cache `std::map<uint32_t, Entry::Ptr> m_cache`: the key/value pairs
in iteration order, which for `std::map` is strictly ascending key order (so
keys are unique), each key a 32-bit unsigned number. -/
structure Cache where
  items : List (Nat × Entry)
  ascending : items.Pairwise (fun a b => a.1 < b.1)
  bounded : ∀ it ∈ items, it.1 < 2 ^ 32

/-- The call `m_cache.clear()` leaves the map with no element. -/
def Cache.clear (_cache : Cache) : Cache :=
  ⟨[], List.Pairwise.nil, by simp⟩

/-- The call `m_cache.empty()`: whether the map has no element. -/
def Cache.empty (cache : Cache) : Bool :=
  cache.items.isEmpty

/-- The call `m_cache.size()`: the number of elements of the map. -/
def Cache.size (cache : Cache) : Nat :=
  cache.items.length

/-- The data members of `MemoryTable`. The storage handle `m_remoteDB` is kept
as an identifier; none of the operations below dereferences it. -/
structure MemoryTable where
  m_remoteDB : Nat
  m_tableInfo : TableInfo
  m_cache : Cache
  m_newEntries : Entries
  m_blockHash : h256
  m_blockNum : Int

/-- The exceptions raised in this file: `boost::bad_lexical_cast` by the numeric
conversion and `std::invalid_argument` by `checkField`. Both derive from
`std::exception`. -/
inductive Exception where
  | bad_lexical_cast
  | invalid_argument (what : String)
  deriving DecidableEq, Repr

deriving instance DecidableEq for Except

/-! ## Numeric conversion -/

/-- Modelled from the spec: the unsigned digit reader behind
`boost::lexical_cast<int>` (a library routine outside the sources; the spec
says both sides "are then parsed as integers" and that non-numeric content is
a parse failure). It accepts one or more decimal digits, leading zeros
included, whose value fits an unsigned 32-bit number. -/
def lcast_ret_unsigned (digits : List Char) : Option Nat :=
  match digits with
  | [] => none
  | _ :: _ =>
    if digits.all Char.isDigit then
      let value := digits.foldl (fun acc c => 10 * acc + (c.toNat - 48)) 0
      if value ≤ 4294967295 then some value else none
    else none

/-- Modelled from the spec: `boost::lexical_cast<int>(std::string)` (a library
routine outside the sources). The whole string must be an optional sign `+`
or `-` followed by decimal digits, and the value must fit a signed 32-bit
`int`; anything else throws `bad_lexical_cast`. -/
def lexical_cast_int (s : String) : Except Exception Int :=
  match s.data with
  | [] => .error .bad_lexical_cast
  | c :: rest =>
    let has_minus : Bool := c = '-'
    let start := if has_minus ∨ c = '+' then rest else c :: rest
    match lcast_ret_unsigned start with
    | none => .error .bad_lexical_cast
    | some out_tmp =>
      if has_minus then
        if out_tmp ≤ 2147483648 then .ok (0 - (out_tmp : Int)) else .error .bad_lexical_cast
      else
        if out_tmp ≤ 2147483647 then .ok (out_tmp : Int) else .error .bad_lexical_cast

/-! ## Condition evaluator -/

/-- The body of the `try` block of `processCondition`: the loop over the
clauses. `.ok false` is an early `return false`, `.ok true` is reaching the
end of the loop (the function then returns `true`), `.error` is an exception
leaving the loop. -/
def processConditionLoop (entry : Entry) :
    List (String × (Op × String)) → Except Exception Bool
  | [] => .ok true
  | it :: rest =>
    if entry.getStatus = Status.DELETED then .ok false
    else
      let lhs := entry.getField it.1
      let rhs := it.2.2
      if it.2.1 = Op.eq then
        if lhs ≠ rhs then .ok false else processConditionLoop entry rest
      else if it.2.1 = Op.ne then
        if lhs = rhs then .ok false else processConditionLoop entry rest
      else
        let lhs := if lhs = "" then "0" else lhs
        let rhs := if rhs = "" then "0" else rhs
        match lexical_cast_int lhs with
        | .error e => .error e
        | .ok lhsNum =>
          match lexical_cast_int rhs with
          | .error e => .error e
          | .ok rhsNum =>
            match it.2.1 with
            | Op.eq => processConditionLoop entry rest
            | Op.ne => processConditionLoop entry rest
            | Op.gt => if lhsNum ≤ rhsNum then .ok false else processConditionLoop entry rest
            | Op.ge => if lhsNum < rhsNum then .ok false else processConditionLoop entry rest
            | Op.lt => if lhsNum ≥ rhsNum then .ok false else processConditionLoop entry rest
            | Op.le => if lhsNum > rhsNum then .ok false else processConditionLoop entry rest

/-- The function `MemoryTable::processCondition`: the loop inside `try`, with
`catch (std::exception&)` logging and returning `false`. -/
def processCondition (entry : Entry) (condition : Condition) : Bool :=
  match processConditionLoop entry condition.getConditions with
  | .ok result => result
  | .error _ => false

/-! ## Query processor -/

/-- The function `MemoryTable::processEntries`: with no clause every index is returned;
otherwise the indices of the entries that satisfy the condition. Each loop
runs `i` over `0 .. entries->size() - 1`, where `get(i)` finds an entry. -/
def processEntries (entries : Entries) (condition : Condition) : List Nat :=
  if condition.getConditions.isEmpty then
    (List.range entries.size).foldl (fun indexes i => indexes ++ [i]) []
  else
    (List.range entries.size).foldl
      (fun indexes i =>
        match entries.get i with
        | some entry => if processCondition entry condition then indexes ++ [i] else indexes
        | none => indexes)
      []

/-- The per-row test made by the second loop of `processEntries` at index `i`:
whether `get(i)` satisfies the condition. -/
def rowMatches (entries : Entries) (condition : Condition) (i : Nat) : Bool :=
  match entries.get i with
  | some entry => processCondition entry condition
  | none => false

/-! ## Schema and access guards -/

/-- The loop of `checkField` over the fields of the entry: the first field name
that `find` does not locate in the declared field list throws
`std::invalid_argument("Invalid key.")`. -/
def checkFieldLoop (declared : List String) : List (String × String) → Except Exception Unit
  | [] => .ok ()
  | it :: rest =>
    if it.1 ∉ declared then .error (.invalid_argument "Invalid key.")
    else checkFieldLoop declared rest

/-- The function `MemoryTable::checkField`: the outcome of the call together with the table
after it. -/
def MemoryTable.checkField (table : MemoryTable) (entry : Entry) :
    Except Exception Unit × MemoryTable :=
  (checkFieldLoop table.m_tableInfo.fields entry.fields, table)

/-- The function `MemoryTable::checkAuthority`: `true` at once when the
authorized-address list is empty, otherwise whether `find` locates `_origin`
in it. -/
def MemoryTable.checkAuthority (table : MemoryTable) (_origin : Address) : Bool :=
  if table.m_tableInfo.authorizedAddress.isEmpty then true
  else
    match table.m_tableInfo.authorizedAddress.find? (fun a => a == _origin) with
    | some _ => true
    | none => false

/-! ## Table facade -/

/-- The function `MemoryTable::dump`: the table info with a fresh collection to which every
value of the base cache, then every pending entry `get(i)`, is added. -/
def MemoryTable.dump (table : MemoryTable) : TableData :=
  let entries : Entries := []
  let entries := table.m_cache.items.foldl (fun acc it => acc.addEntry it.2) entries
  let entries := (List.range table.m_newEntries.size).foldl
    (fun acc i =>
      match table.m_newEntries.get i with
      | some entry => acc.addEntry entry
      | none => acc)
    entries
  { info := table.m_tableInfo, entries := entries }

/-- The function `MemoryTable::clear`: `m_cache.clear()`. -/
def MemoryTable.clear (table : MemoryTable) : MemoryTable :=
  { table with m_cache := table.m_cache.clear }

/-- The function `MemoryTable::empty`: `m_cache.empty()`. -/
def MemoryTable.empty (table : MemoryTable) : Bool :=
  table.m_cache.empty

/-! ## State digest -/

/-- The call `s.substr(pos, len)` of `std::string`, for `pos` not beyond the
size: at most `len` characters starting at position `pos`. -/
def substr (s : String) (pos len : Nat) : String :=
  String.mk ((s.data.drop pos).take len)

/-- The function `MemoryTable::isHashField`. The constant `STATUS`, the name of
the status field, is declared outside the sources and is taken as a
parameter. -/
def isHashField (STATUS : String) (_key : String) : Bool :=
  if _key ≠ "" then
    (substr _key 0 1 ≠ "_" ∧ substr _key (_key.length - 1) 1 ≠ "_") ∨ _key = STATUS
  else
    false

/-! ## Reference readings used by the theorems -/

/-- The reading of a string as a decimal integer of any size: an optional sign
`+` or `-` followed by one or more decimal digits. Unlike `lexical_cast_int`
it has no range check. -/
def decimalInteger (s : String) : Option Int :=
  match s.data with
  | [] => none
  | c :: rest =>
    let digits := if c = '-' ∨ c = '+' then rest else c :: rest
    match digits with
    | [] => none
    | _ :: _ =>
      if digits.all Char.isDigit then
        let value : Nat := digits.foldl (fun acc c => 10 * acc + (c.toNat - 48)) 0
        if c = '-' then some (0 - (value : Int)) else some (value : Int)
      else none

/-- The per-row evaluation of a query: the ascending list of the indices `i`
below `entries.size()` for which `processCondition(entries.get(i), condition)`
is true. -/
def matchingPositions (entries : Entries) (condition : Condition) : List Nat :=
  (List.range entries.size).filter (rowMatches entries condition)

/-! ## Theorems -/

/-- On an entry that is not DELETED, a single ordering clause whose two operands
convert is decided by the comparison of the two numbers. -/
theorem processConditionLoop_single_ordering (entry : Entry) (f : String) (op : Op)
    (v : String) (L R : Int)
    (hstatus : entry.status = Status.NORMAL)
    (hl : lexical_cast_int (if entry.getField f = "" then "0" else entry.getField f) = .ok L)
    (hr : lexical_cast_int (if v = "" then "0" else v) = .ok R) :
    processConditionLoop entry [(f, (op, v))] =
      .ok (match op with
        | Op.eq => decide (entry.getField f = v)
        | Op.ne => decide (entry.getField f ≠ v)
        | Op.gt => decide (L > R)
        | Op.ge => decide (L ≥ R)
        | Op.lt => decide (L < R)
        | Op.le => decide (L ≤ R)) := by
  cases op <;>
    simp [processConditionLoop, Entry.getStatus, hstatus, hl, hr] <;>
    split <;> simp_all

/-- C1: for a NORMAL entry and a single clause `(f, op, v)` with an ordering
operator, with `l` the entry's value of `f` and `r` the value `v`, each replaced
by "0" when empty: if `l` and `r` convert to the integers `L` and `R`, then
`processCondition` is true exactly when `L > R` (gt), `L >= R` (ge), `L < R`
(lt), `L <= R` (le). For the clause age gt "10", the entries whose age is "5",
"15" and "" give false, true and false. -/
theorem processCondition_ordering (entry : Entry) (f : String) (v : String) (L R : Int)
    (hstatus : entry.status = Status.NORMAL)
    (hl : lexical_cast_int (if entry.getField f = "" then "0" else entry.getField f) = .ok L)
    (hr : lexical_cast_int (if v = "" then "0" else v) = .ok R) :
    (processCondition entry ⟨[(f, (Op.gt, v))]⟩ = true ↔ L > R) ∧
    (processCondition entry ⟨[(f, (Op.ge, v))]⟩ = true ↔ L ≥ R) ∧
    (processCondition entry ⟨[(f, (Op.lt, v))]⟩ = true ↔ L < R) ∧
    (processCondition entry ⟨[(f, (Op.le, v))]⟩ = true ↔ L ≤ R) ∧
    processCondition ⟨[("age", "5")], Status.NORMAL⟩ ⟨[("age", (Op.gt, "10"))]⟩ = false ∧
    processCondition ⟨[("age", "15")], Status.NORMAL⟩ ⟨[("age", (Op.gt, "10"))]⟩ = true ∧
    processCondition ⟨[("age", "")], Status.NORMAL⟩ ⟨[("age", (Op.gt, "10"))]⟩ = false := by
  refine ⟨?_, ?_, ?_, ?_, by decide, by decide, by decide⟩ <;>
    simp [processCondition, Condition.getConditions,
      processConditionLoop_single_ordering entry f _ v L R hstatus hl hr]

/-- Witness for `processCondition_ordering`: the entry with age "15" against the
value "10" (`L = 15`, `R = 10`). -/
theorem processCondition_ordering_witness :
    (processCondition ⟨[("age", "15")], Status.NORMAL⟩ ⟨[("age", (Op.gt, "10"))]⟩ = true
      ↔ (15 : Int) > 10) ∧
    (processCondition ⟨[("age", "15")], Status.NORMAL⟩ ⟨[("age", (Op.lt, "10"))]⟩ = true
      ↔ (15 : Int) < 10) :=
  have h := processCondition_ordering ⟨[("age", "15")], Status.NORMAL⟩ "age" "10" 15 10
    rfl (by decide) (by decide)
  ⟨h.1, h.2.2.1⟩

/-- A first clause met by a DELETED entry makes the loop return `false`. -/
theorem processConditionLoop_deleted (entry : Entry)
    (it : String × (Op × String)) (rest : List (String × (Op × String)))
    (hstatus : entry.status = Status.DELETED) :
    processConditionLoop entry (it :: rest) = .ok false := by
  simp [processConditionLoop, Entry.getStatus, hstatus]

/-- C2 (as the claim states it, refuted): the DELETED entry with no fields
against the condition with no clauses is matched, since the status test sits
inside the loop over the clauses. -/
theorem processCondition_deleted_no_clause_counterexample :
    (Entry.mk [] Status.DELETED).status = Status.DELETED ∧
    (Condition.mk []).getConditions = [] ∧
    processCondition (Entry.mk [] Status.DELETED) (Condition.mk []) = true := by
  decide

/-- A DELETED entry fails every condition that has a clause. -/
theorem processCondition_false_of_deleted (entry : Entry) (condition : Condition)
    (hstatus : entry.status = Status.DELETED)
    (hclauses : condition.getConditions ≠ []) :
    processCondition entry condition = false := by
  unfold processCondition
  cases hc : condition.getConditions with
  | nil => exact absurd hc hclauses
  | cons it rest => simp [processConditionLoop_deleted entry it rest hstatus]

/-- C2 (amended): for every entry whose status is DELETED and every condition
with at least one clause, `processCondition` returns false. -/
theorem processCondition_deleted (entry : Entry) (condition : Condition)
    (hstatus : entry.status = Status.DELETED)
    (hclauses : condition.getConditions ≠ []) :
    processCondition entry condition = false :=
  processCondition_false_of_deleted entry condition hstatus hclauses

/-- Witness for `processCondition_deleted`: a DELETED entry whose name is "a"
against the clause name eq "a". -/
theorem processCondition_deleted_witness :
    processCondition (Entry.mk [("name", "a")] Status.DELETED)
      (Condition.mk [("name", (Op.eq, "a"))]) = false :=
  processCondition_deleted _ _ rfl (by decide)

/-- The loop that appends every index leaves the indices in order after what
was already collected. -/
theorem foldl_append_index (l : List Nat) (acc : List Nat) :
    l.foldl (fun indexes i => indexes ++ [i]) acc = acc ++ l := by
  induction l generalizing acc with
  | nil => simp
  | cons i l ih => simp [ih]

/-- The loop that appends the indices passing a test is a filter. -/
theorem foldl_append_if (p : Nat → Bool) (l : List Nat) (acc : List Nat) :
    l.foldl (fun indexes i => if p i then indexes ++ [i] else indexes) acc
      = acc ++ l.filter p := by
  induction l generalizing acc with
  | nil => simp
  | cons i l ih =>
    by_cases hp : p i <;> simp [ih, hp]

/-- With at least one clause, `processEntries` is the filter of the index range
by the per-row test. -/
theorem processEntries_eq_filter (entries : Entries) (condition : Condition)
    (hclauses : condition.getConditions ≠ []) :
    processEntries entries condition
      = (List.range entries.size).filter (rowMatches entries condition) := by
  have hfun : (fun (indexes : List Nat) (i : Nat) =>
        match entries.get i with
        | some entry => if processCondition entry condition then indexes ++ [i] else indexes
        | none => indexes)
      = (fun indexes i => if rowMatches entries condition i then indexes ++ [i] else indexes) := by
    funext indexes i
    unfold rowMatches
    cases entries.get i <;> simp
  unfold processEntries
  rw [if_neg (by simpa using hclauses), hfun, foldl_append_if]
  simp

/-- With no clause, `processEntries` is the index range. -/
theorem processEntries_eq_range (entries : Entries) (condition : Condition)
    (hclauses : condition.getConditions = []) :
    processEntries entries condition = List.range entries.size := by
  unfold processEntries
  rw [if_pos (by simp [hclauses]), foldl_append_index]
  simp

/-- Membership in the filter of the index range by the per-row test. -/
theorem mem_filter_rowMatches (entries : Entries) (condition : Condition) (i : Nat) :
    i ∈ (List.range entries.size).filter (rowMatches entries condition)
      ↔ ∃ entry, entries.get i = some entry ∧ processCondition entry condition = true := by
  simp only [List.mem_filter, List.mem_range, rowMatches, Entries.get, Entries.size]
  constructor
  · rintro ⟨hlt, hm⟩
    rw [List.getElem?_eq_getElem hlt] at hm ⊢
    exact ⟨_, rfl, hm⟩
  · rintro ⟨entry, hget, hm⟩
    have hlt : i < entries.length := by
      by_contra hge
      rw [List.getElem?_eq_none (Nat.le_of_not_lt hge)] at hget
      cases hget
    exact ⟨hlt, by rw [hget]; exact hm⟩

/-- C3 (as the claim states it, refuted): for the collection holding one
DELETED entry and the condition with no clauses, `processEntries` returns the
index 0, which refers to that DELETED entry. -/
theorem processEntries_deleted_no_clause_counterexample :
    processEntries [Entry.mk [] Status.DELETED] (Condition.mk []) = [0] ∧
    Entries.get [Entry.mk [] Status.DELETED] 0 = some (Entry.mk [] Status.DELETED) ∧
    (Entry.mk [] Status.DELETED).status = Status.DELETED := by
  decide

/-- C3 (amended): for every entries collection and every condition with at least
one clause, every index returned by `processEntries` refers to an entry of the
collection, and that entry is not DELETED. -/
theorem processEntries_excludes_deleted (entries : Entries) (condition : Condition)
    (hclauses : condition.getConditions ≠ []) :
    ∀ i ∈ processEntries entries condition,
      ∃ entry, entries.get i = some entry ∧ entry.status ≠ Status.DELETED := by
  intro i hi
  rw [processEntries_eq_filter entries condition hclauses, mem_filter_rowMatches] at hi
  obtain ⟨entry, hget, hm⟩ := hi
  refine ⟨entry, hget, ?_⟩
  intro hdel
  rw [processCondition_false_of_deleted entry condition hdel hclauses] at hm
  cases hm

/-- Witness for `processEntries_excludes_deleted`: a NORMAL row between two
DELETED rows, all named "a", against the clause name eq "a"; only the index 1
is returned and it refers to the NORMAL row. -/
theorem processEntries_excludes_deleted_witness :
    processEntries
        [Entry.mk [("name", "a")] Status.DELETED, Entry.mk [("name", "a")] Status.NORMAL,
          Entry.mk [("name", "a")] Status.DELETED]
        (Condition.mk [("name", (Op.eq, "a"))]) = [1] ∧
    ∃ entry,
      Entries.get
        [Entry.mk [("name", "a")] Status.DELETED, Entry.mk [("name", "a")] Status.NORMAL,
          Entry.mk [("name", "a")] Status.DELETED] 1 = some entry ∧
      entry.status ≠ Status.DELETED :=
  ⟨by decide,
    processEntries_excludes_deleted
      [Entry.mk [("name", "a")] Status.DELETED, Entry.mk [("name", "a")] Status.NORMAL,
        Entry.mk [("name", "a")] Status.DELETED]
      (Condition.mk [("name", (Op.eq, "a"))]) (by decide) 1 (by decide)⟩

/-- C4: for every entries collection and every condition with at least one
clause, `processEntries` returns a strictly increasing list of indices, each
smaller than `entries.size()`, that contains the index `i` if and only if
`processCondition(entries.get(i), condition)` is true. -/
theorem processEntries_with_clauses (entries : Entries) (condition : Condition)
    (hclauses : condition.getConditions ≠ []) :
    (processEntries entries condition).Pairwise (fun i j => i < j) ∧
    (∀ i ∈ processEntries entries condition, i < entries.size) ∧
    (∀ i, i ∈ processEntries entries condition
      ↔ ∃ entry, entries.get i = some entry ∧ processCondition entry condition = true) := by
  rw [processEntries_eq_filter entries condition hclauses]
  refine ⟨?_, ?_, ?_⟩
  · exact (List.pairwise_lt_range entries.size).sublist (List.filter_sublist _)
  · intro i hi
    exact List.mem_range.mp (List.mem_filter.mp hi).1
  · intro i
    exact mem_filter_rowMatches entries condition i

/-- Witness for `processEntries_with_clauses`: ages "5", "15", "" and "20"
against the clause age gt "10"; the rows 1 and 3 are returned. -/
theorem processEntries_with_clauses_witness :
    processEntries
        [Entry.mk [("age", "5")] Status.NORMAL, Entry.mk [("age", "15")] Status.NORMAL,
          Entry.mk [("age", "")] Status.NORMAL, Entry.mk [("age", "20")] Status.NORMAL]
        (Condition.mk [("age", (Op.gt, "10"))]) = [1, 3] ∧
    (processEntries
        [Entry.mk [("age", "5")] Status.NORMAL, Entry.mk [("age", "15")] Status.NORMAL,
          Entry.mk [("age", "")] Status.NORMAL, Entry.mk [("age", "20")] Status.NORMAL]
        (Condition.mk [("age", (Op.gt, "10"))])).Pairwise (fun i j => i < j) :=
  ⟨by decide,
    (processEntries_with_clauses
      [Entry.mk [("age", "5")] Status.NORMAL, Entry.mk [("age", "15")] Status.NORMAL,
        Entry.mk [("age", "")] Status.NORMAL, Entry.mk [("age", "20")] Status.NORMAL]
      (Condition.mk [("age", (Op.gt, "10"))]) (by decide)).1⟩

/-- C5: for every entries collection of size `n` and every condition with no
clauses, `processEntries` returns exactly the list 0, 1, ..., n-1 in ascending
order, whatever the status of the entries. -/
theorem processEntries_no_clause (entries : Entries) (condition : Condition)
    (hclauses : condition.getConditions = []) :
    processEntries entries condition = List.range entries.size :=
  processEntries_eq_range entries condition hclauses

/-- Witness for `processEntries_no_clause`: a NORMAL, a DELETED and a NORMAL row
against the condition with no clauses. -/
theorem processEntries_no_clause_witness :
    processEntries
        [Entry.mk [("name", "a")] Status.NORMAL, Entry.mk [("name", "b")] Status.DELETED,
          Entry.mk [] Status.NORMAL]
        (Condition.mk []) = [0, 1, 2] :=
  processEntries_no_clause
    [Entry.mk [("name", "a")] Status.NORMAL, Entry.mk [("name", "b")] Status.DELETED,
      Entry.mk [] Status.NORMAL]
    (Condition.mk []) rfl

/-- An ordering clause one of whose operands does not convert never lets the
loop go past it: the loop does not end with `true`. -/
theorem processConditionLoop_head_bad (entry : Entry) (f : String) (op : Op) (v : String)
    (rest : List (String × (Op × String)))
    (hop : op = Op.gt ∨ op = Op.ge ∨ op = Op.lt ∨ op = Op.le)
    (hbad : (v ≠ "" ∧ ∀ n, lexical_cast_int v ≠ .ok n) ∨
      (entry.getField f ≠ "" ∧ ∀ n, lexical_cast_int (entry.getField f) ≠ .ok n)) :
    processConditionLoop entry ((f, (op, v)) :: rest) ≠ .ok true := by
  have hne1 : op ≠ Op.eq := by rcases hop with h | h | h | h <;> simp [h]
  have hne2 : op ≠ Op.ne := by rcases hop with h | h | h | h <;> simp [h]
  unfold processConditionLoop
  by_cases hdel : entry.getStatus = Status.DELETED
  · simp [hdel]
  · simp only [hdel, if_false, hne1, hne2]
    rcases hbad with ⟨hv, hvbad⟩ | ⟨hl, hlbad⟩
    · rw [if_neg hv]
      cases hL : lexical_cast_int (if entry.getField f = "" then "0" else entry.getField f) with
      | error e => simp
      | ok L =>
        cases hR : lexical_cast_int v with
        | error e => simp
        | ok R => exact absurd hR (hvbad R)
    · rw [if_neg hl]
      cases hL : lexical_cast_int (entry.getField f) with
      | error e => simp
      | ok L => exact absurd hL (hlbad L)

/-- Putting a clause in front of clauses on which the loop does not end with
`true` gives clauses on which it does not end with `true` either. -/
theorem processConditionLoop_cons_ne_true (entry : Entry) (it : String × (Op × String))
    (rest : List (String × (Op × String)))
    (hrest : processConditionLoop entry rest ≠ .ok true) :
    processConditionLoop entry (it :: rest) ≠ .ok true := by
  obtain ⟨f, op, v⟩ := it
  unfold processConditionLoop
  by_cases hdel : entry.getStatus = Status.DELETED
  · simp [hdel]
  · cases op <;> simp only [hdel, if_false, reduceCtorEq] <;> repeat' split
    all_goals first | exact hrest | simp

/-- A condition that contains an ordering clause with an operand that does not
convert never lets the loop end with `true`. -/
theorem processConditionLoop_mem_bad (entry : Entry) (f : String) (op : Op) (v : String)
    (clauses : List (String × (Op × String)))
    (hmem : (f, (op, v)) ∈ clauses)
    (hop : op = Op.gt ∨ op = Op.ge ∨ op = Op.lt ∨ op = Op.le)
    (hbad : (v ≠ "" ∧ ∀ n, lexical_cast_int v ≠ .ok n) ∨
      (entry.getField f ≠ "" ∧ ∀ n, lexical_cast_int (entry.getField f) ≠ .ok n)) :
    processConditionLoop entry clauses ≠ .ok true := by
  induction clauses with
  | nil => cases hmem
  | cons it rest ih =>
    rcases List.mem_cons.mp hmem with hhead | htail
    · rw [← hhead]
      exact processConditionLoop_head_bad entry f op v rest hop hbad
    · exact processConditionLoop_cons_ne_true entry it rest (ih htail)

/-- C6: `processCondition` never propagates an error. For every entry and every
condition that contains a clause with an ordering operator (gt, ge, lt or le)
whose comparison value, or whose field value in the entry, is non-empty and
does not convert to an integer, `processCondition` returns false, wherever that
clause stands among the other clauses. -/
theorem processCondition_parse_failure (entry : Entry) (condition : Condition)
    (f : String) (op : Op) (v : String)
    (hmem : (f, (op, v)) ∈ condition.getConditions)
    (hop : op = Op.gt ∨ op = Op.ge ∨ op = Op.lt ∨ op = Op.le)
    (hbad : (v ≠ "" ∧ ∀ n, lexical_cast_int v ≠ .ok n) ∨
      (entry.getField f ≠ "" ∧ ∀ n, lexical_cast_int (entry.getField f) ≠ .ok n)) :
    processCondition entry condition = false := by
  have hloop := processConditionLoop_mem_bad entry f op v condition.getConditions hmem hop hbad
  unfold processCondition
  cases hres : processConditionLoop entry condition.getConditions with
  | error e => rfl
  | ok result =>
    cases result with
    | false => rfl
    | true => exact absurd hres hloop

/-- Witness for `processCondition_parse_failure`: the entry named "a" whose age
is "abc", against name eq "a" followed by age gt "10"; the first clause holds
and the second throws. -/
theorem processCondition_parse_failure_witness :
    processCondition (Entry.mk [("name", "a"), ("age", "abc")] Status.NORMAL)
      (Condition.mk [("name", (Op.eq, "a")), ("age", (Op.gt, "10"))]) = false :=
  processCondition_parse_failure
    (Entry.mk [("name", "a"), ("age", "abc")] Status.NORMAL)
    (Condition.mk [("name", (Op.eq, "a")), ("age", (Op.gt, "10"))])
    "age" Op.gt "10" (by decide) (Or.inl rfl)
    (Or.inr ⟨by decide, fun n h => by
      have hcast : lexical_cast_int
          ((Entry.mk [("name", "a"), ("age", "abc")] Status.NORMAL).getField "age")
          = .error .bad_lexical_cast := by decide
      rw [hcast] at h
      cases h⟩)

/-- The loop of `checkField` throws exactly when some field name is not
declared, and then throws `std::invalid_argument("Invalid key.")`. -/
theorem checkFieldLoop_error_iff (declared : List String) (fields : List (String × String)) :
    checkFieldLoop declared fields = .error (.invalid_argument "Invalid key.")
      ↔ ∃ it ∈ fields, it.1 ∉ declared := by
  induction fields with
  | nil => simp [checkFieldLoop]
  | cons it rest ih =>
    unfold checkFieldLoop
    by_cases hin : it.1 ∈ declared
    · simp [hin, ih]
    · simp [hin]

/-- The loop of `checkField` ends normally exactly when every field name is
declared. -/
theorem checkFieldLoop_ok_iff (declared : List String) (fields : List (String × String)) :
    checkFieldLoop declared fields = .ok () ↔ ∀ it ∈ fields, it.1 ∈ declared := by
  induction fields with
  | nil => simp [checkFieldLoop]
  | cons it rest ih =>
    unfold checkFieldLoop
    by_cases hin : it.1 ∈ declared
    · simp [hin, ih]
    · simp [hin]

/-- C7: for every entry and every table, `checkField` fails with the
invalid-argument error if and only if the entry has at least one field name
that is not in the table's declared field list; otherwise it returns normally
(so an entry with no fields passes against any schema); in both cases the table,
with its base cache and pending-new entries, is unchanged. -/
theorem checkField_spec (table : MemoryTable) (entry : Entry) :
    ((table.checkField entry).1 = .error (.invalid_argument "Invalid key.")
      ↔ ∃ it ∈ entry.fields, it.1 ∉ table.m_tableInfo.fields) ∧
    ((table.checkField entry).1 = .ok ()
      ↔ ¬ ∃ it ∈ entry.fields, it.1 ∉ table.m_tableInfo.fields) ∧
    (entry.fields = [] → (table.checkField entry).1 = .ok ()) ∧
    (table.checkField entry).2 = table ∧
    (table.checkField entry).2.m_cache.items = table.m_cache.items ∧
    (table.checkField entry).2.m_newEntries = table.m_newEntries := by
  refine ⟨?_, ?_, ?_, rfl, rfl, rfl⟩
  · exact checkFieldLoop_error_iff _ _
  · simp only [MemoryTable.checkField, checkFieldLoop_ok_iff]
    push_neg
    exact Iff.rfl
  · intro hnil
    simp [MemoryTable.checkField, hnil, checkFieldLoop]

/-- C8: for every address and every table info, `checkAuthority(addr)` returns
true when the authorized-address list is empty, and otherwise returns true if
and only if `addr` is a member of that list. -/
theorem checkAuthority_spec (table : MemoryTable) (addr : Address) :
    (table.m_tableInfo.authorizedAddress = [] → table.checkAuthority addr = true) ∧
    (table.m_tableInfo.authorizedAddress ≠ [] →
      (table.checkAuthority addr = true ↔ addr ∈ table.m_tableInfo.authorizedAddress)) := by
  constructor
  · intro hnil
    simp [MemoryTable.checkAuthority, hnil]
  · intro hne
    unfold MemoryTable.checkAuthority
    rw [if_neg (by simpa using hne)]
    cases hfind : table.m_tableInfo.authorizedAddress.find? (fun a => a == addr) with
    | none =>
      simp only [List.find?_eq_none] at hfind
      constructor
      · intro h; cases h
      · intro hmem
        exact absurd (by simp) (hfind addr hmem)
    | some a =>
      have hmem := List.mem_of_find?_eq_some hfind
      have heq := List.find?_some hfind
      simp only [beq_iff_eq] at heq
      simp [← heq, hmem]

/-- The first loop of `dump` adds the values of the cache, in iteration order,
after what was already collected. -/
theorem foldl_addEntry_items (items : List (Nat × Entry)) (acc : Entries) :
    items.foldl (fun (acc : Entries) it => acc.addEntry it.2) acc
      = acc ++ items.map Prod.snd := by
  induction items generalizing acc with
  | nil => simp
  | cons it rest ih =>
    rw [List.foldl_cons, ih]
    simp [Entries.addEntry]

/-- The second loop of `dump`, run over the first `n` indices, adds the first
`n` pending entries after what was already collected. -/
theorem foldl_addEntry_range (newEntries : Entries) (acc : Entries) (n : Nat) :
    (List.range n).foldl
        (fun (acc : Entries) i =>
          match newEntries.get i with
          | some entry => acc.addEntry entry
          | none => acc)
        acc
      = acc ++ newEntries.take n := by
  induction n with
  | zero => simp
  | succ n ih =>
    rw [List.range_succ, List.foldl_append, ih, List.take_succ]
    simp only [List.foldl_cons, List.foldl_nil, Entries.get]
    cases newEntries[n]? <;> simp [Entries.addEntry]

/-- The entries of `dump` are the cache values followed by the pending
entries. -/
theorem dump_entries_eq (table : MemoryTable) :
    table.dump.entries = table.m_cache.items.map Prod.snd ++ table.m_newEntries := by
  simp [MemoryTable.dump, foldl_addEntry_items, foldl_addEntry_range, Entries.size]

/-- C9: for every table state, `dump` returns a TableData whose info is the
table's TableInfo and whose entries are exactly the base-cache entries in
ascending internal-id order followed by the pending-new entries in append
order; its length is the base-cache size plus the pending-new size, and
entries with status DELETED are included, not filtered. -/
theorem dump_spec (table : MemoryTable) :
    table.dump.info = table.m_tableInfo ∧
    table.dump.entries = table.m_cache.items.map Prod.snd ++ table.m_newEntries ∧
    (table.m_cache.items.map Prod.fst).Pairwise (fun a b => a < b) ∧
    table.dump.entries.size = table.m_cache.size + table.m_newEntries.size ∧
    (∀ entry, entry.status = Status.DELETED →
      (entry ∈ table.m_cache.items.map Prod.snd ∨ entry ∈ table.m_newEntries) →
      entry ∈ table.dump.entries) := by
  refine ⟨rfl, dump_entries_eq table, ?_, ?_, ?_⟩
  · rw [List.pairwise_map]
    exact table.m_cache.ascending
  · simp [dump_entries_eq, Entries.size, Cache.size]
  · intro entry _ hmem
    rw [dump_entries_eq]
    exact List.mem_append.mpr hmem

/-- On an entry that is not DELETED, a single eq or ne clause is decided by
comparing the field value and the comparison value as strings; the loop ends
without an exception. -/
theorem processConditionLoop_single_eq_ne (entry : Entry) (f : String) (v : String)
    (hstatus : entry.status = Status.NORMAL) :
    processConditionLoop entry [(f, (Op.eq, v))] = .ok (decide (entry.getField f = v)) ∧
    processConditionLoop entry [(f, (Op.ne, v))] = .ok (decide (entry.getField f ≠ v)) := by
  constructor <;>
    simp [processConditionLoop, Entry.getStatus, hstatus] <;>
    split <;> simp_all

/-- C10: for every entry with status NORMAL and every single-clause condition
`(f, op, v)`: with op = eq, `processCondition` returns true exactly when the
entry's value of `f` (the empty string when the field is absent) is the same
string as `v`; with op = ne, exactly when it is a different string. No numeric
conversion and no coercion of empty to "0" applies, so the loop ends without an
exception whatever the content. -/
theorem processCondition_eq_ne (entry : Entry) (f : String) (v : String)
    (hstatus : entry.status = Status.NORMAL) :
    (processCondition entry ⟨[(f, (Op.eq, v))]⟩ = true ↔ entry.getField f = v) ∧
    (processCondition entry ⟨[(f, (Op.ne, v))]⟩ = true ↔ entry.getField f ≠ v) ∧
    (entry.fields.lookup f = none → entry.getField f = "") ∧
    (∃ result, processConditionLoop entry [(f, (Op.eq, v))] = .ok result) ∧
    (∃ result, processConditionLoop entry [(f, (Op.ne, v))] = .ok result) := by
  have hloop := processConditionLoop_single_eq_ne entry f v hstatus
  refine ⟨?_, ?_, ?_, ⟨_, hloop.1⟩, ⟨_, hloop.2⟩⟩
  · simp [processCondition, Condition.getConditions, hloop.1]
  · simp [processCondition, Condition.getConditions, hloop.2]
  · intro hnone
    simp [Entry.getField, hnone]

/-- Witness for `processCondition_eq_ne`: the entry whose only field is name =
"abc", asked about the absent field age against the empty value: eq holds and
ne does not, and "" is not coerced to "0". -/
theorem processCondition_eq_ne_witness :
    (processCondition (Entry.mk [("name", "abc")] Status.NORMAL)
        (Condition.mk [("age", (Op.eq, ""))]) = true
      ↔ (Entry.mk [("name", "abc")] Status.NORMAL).getField "age" = "") ∧
    (Entry.mk [("name", "abc")] Status.NORMAL).getField "age" = "" :=
  ⟨(processCondition_eq_ne (Entry.mk [("name", "abc")] Status.NORMAL) "age" "" rfl).1,
    by decide⟩


/-- The loop over `c1` followed by `c2` runs the loop over `c1` and, only when
that reaches its end, goes on with the loop over `c2`. -/
theorem processConditionLoop_append (entry : Entry)
    (c1 c2 : List (String × (Op × String))) :
    processConditionLoop entry (c1 ++ c2) =
      match processConditionLoop entry c1 with
      | .ok true => processConditionLoop entry c2
      | .ok false => .ok false
      | .error e => .error e := by
  induction c1 with
  | nil => simp [processConditionLoop]
  | cons it rest ih =>
    obtain ⟨f, op, v⟩ := it
    simp only [List.cons_append, processConditionLoop]
    by_cases hdel : entry.getStatus = Status.DELETED
    · simp [hdel]
    · cases op <;> simp only [hdel, if_false, reduceCtorEq, if_true, ih] <;> repeat' split
      all_goals first | rfl | simp_all

/-- C11: clauses are AND-ed. For every entry and all clause sequences `c1` and
`c2`, `processCondition(entry, c1 followed by c2)` equals
`processCondition(entry, c1) AND processCondition(entry, c2)`, also when a
clause of `c1` or `c2` fails to convert its operands. -/
theorem processCondition_append (entry : Entry) (c1 c2 : List (String × (Op × String))) :
    processCondition entry ⟨c1 ++ c2⟩
      = (processCondition entry ⟨c1⟩ && processCondition entry ⟨c2⟩) := by
  simp only [processCondition, Condition.getConditions, processConditionLoop_append]
  cases h1 : processConditionLoop entry c1 with
  | error e => simp
  | ok r =>
    cases r with
    | false => simp
    | true => simp

/-- With no clause the loop body never runs and `processCondition` returns
`true`. -/
theorem processCondition_nil (entry : Entry) :
    processCondition entry ⟨[]⟩ = true := by
  simp [processCondition, Condition.getConditions, processConditionLoop]

/-- C12: for every entry, whatever its fields and status, `processCondition`
with a condition that has no clauses returns true. -/
theorem processCondition_no_clause (fields : List (String × String)) (status : Status) :
    processCondition (Entry.mk fields status) (Condition.mk []) = true :=
  processCondition_nil (Entry.mk fields status)


/-- C13: for every table state, after `clear()` the base cache is empty
(`empty()` returns true) while the pending-new entries, the table info, the
block hash and the block number are unchanged; a `dump()` taken right after
`clear()` returns exactly the pending-new entries in append order. -/
theorem clear_spec (table : MemoryTable) :
    table.clear.m_cache.items = [] ∧
    table.clear.empty = true ∧
    table.clear.m_newEntries = table.m_newEntries ∧
    table.clear.m_tableInfo = table.m_tableInfo ∧
    table.clear.m_blockHash = table.m_blockHash ∧
    table.clear.m_blockNum = table.m_blockNum ∧
    table.clear.m_remoteDB = table.m_remoteDB ∧
    table.clear.dump.info = table.m_tableInfo ∧
    table.clear.dump.entries = table.m_newEntries := by
  refine ⟨rfl, rfl, rfl, rfl, rfl, rfl, rfl, rfl, ?_⟩
  rw [dump_entries_eq]
  simp [MemoryTable.clear, Cache.clear]

/-- C14: for every table state, `empty()` returns true if and only if the base
cache has zero entries, independently of the pending-new entries: a table whose
base cache is empty but whose pending-new list is non-empty reports
`empty() = true` although `dump()` returns a non-empty collection. -/
theorem empty_spec (table : MemoryTable) :
    (table.empty = true ↔ table.m_cache.size = 0) ∧
    (∀ newEntries : Entries,
      MemoryTable.empty { table with m_newEntries := newEntries } = table.empty) ∧
    (table.m_cache.size = 0 → table.m_newEntries ≠ [] →
      table.empty = true ∧ table.dump.entries ≠ []) ∧
    (MemoryTable.empty
        (MemoryTable.mk 0 (TableInfo.mk "t" [] ["name"]) (Cache.mk [] List.Pairwise.nil (by simp))
          [Entry.mk [("name", "a")] Status.NORMAL] 0 0) = true ∧
      (MemoryTable.dump
        (MemoryTable.mk 0 (TableInfo.mk "t" [] ["name"]) (Cache.mk [] List.Pairwise.nil (by simp))
          [Entry.mk [("name", "a")] Status.NORMAL] 0 0)).entries
        = [Entry.mk [("name", "a")] Status.NORMAL]) := by
  have hiff : table.empty = true ↔ table.m_cache.size = 0 := by
    simp [MemoryTable.empty, Cache.empty, Cache.size]
  refine ⟨hiff, fun _ => rfl, ?_, rfl, ?_⟩
  · intro hsize hnew
    refine ⟨hiff.mpr hsize, ?_⟩
    rw [dump_entries_eq]
    simp [hnew]
  · rw [dump_entries_eq]
    rfl

/-- C16: the empty-condition fast path of `processEntries` agrees with per-row
evaluation. For every entries collection and every condition, with or without
clauses, `processEntries` returns exactly the ascending list of the indices
`i` for which `processCondition(entries.get(i), condition)` is true. -/
theorem processEntries_eq_matchingPositions (entries : Entries) (condition : Condition) :
    processEntries entries condition = matchingPositions entries condition ∧
    (matchingPositions entries condition).Pairwise (fun i j => i < j) ∧
    (∀ i, i ∈ matchingPositions entries condition
      ↔ ∃ entry, entries.get i = some entry ∧ processCondition entry condition = true) := by
  refine ⟨?_, ?_, ?_⟩
  · by_cases hclauses : condition.getConditions = []
    · rw [processEntries_eq_range entries condition hclauses]
      unfold matchingPositions
      symm
      rw [List.filter_eq_self]
      intro i hi
      have hlt : i < entries.length := by simpa [Entries.size] using hi
      have hcond : condition = ⟨[]⟩ := by
        cases condition
        simpa [Condition.getConditions] using hclauses
      simp [rowMatches, Entries.get, List.getElem?_eq_getElem hlt, hcond, processCondition_nil]
    · exact processEntries_eq_filter entries condition hclauses
  · exact (List.pairwise_lt_range entries.size).sublist (List.filter_sublist _)
  · intro i
    exact mem_filter_rowMatches entries condition i


/-- A decimal integer outside the signed 32-bit range is a non-empty string
that `lexical_cast_int` does not convert. -/
theorem lexical_cast_int_out_of_range (v : String) (z : Int)
    (hdec : decimalInteger v = some z)
    (hrange : z < -2147483648 ∨ 2147483647 < z) :
    v ≠ "" ∧ ∀ n, lexical_cast_int v ≠ .ok n := by
  unfold decimalInteger at hdec
  constructor
  · intro hv
    subst hv
    simp at hdec
  · intro n hn
    unfold lexical_cast_int at hn
    cases hd : v.data with
    | nil =>
      rw [hd] at hdec
      simp at hdec
    | cons c rest =>
      rw [hd] at hdec hn
      simp only [decide_eq_true_eq] at hdec hn
      generalize (if c = '-' ∨ c = '+' then rest else c :: rest) = digits at hdec hn
      cases digits with
      | nil => simp at hdec
      | cons d ds =>
        simp only [lcast_ret_unsigned] at hn
        by_cases hall : (d :: ds).all Char.isDigit = true
        · simp only [hall, if_true] at hdec hn
          generalize List.foldl (fun acc c => 10 * acc + (c.toNat - 48)) 0 (d :: ds)
            = value at hdec hn
          by_cases hfit : value ≤ 4294967295
          · by_cases hminus : c = '-'
            · simp only [hfit, hminus, if_true, Option.some.injEq] at hdec hn
              split at hn
              · omega
              · cases hn
            · simp only [hfit, hminus, if_true, if_false, Option.some.injEq] at hdec hn
              split at hn
              · omega
              · cases hn
          · simp only [hfit, if_false] at hn
            cases hn
        · simp [hall] at hdec


/-- Whatever `lexical_cast_int` converts lies in the signed 32-bit range. -/
theorem lexical_cast_int_range (s : String) (n : Int) (hn : lexical_cast_int s = .ok n) :
    -2147483648 ≤ n ∧ n ≤ 2147483647 := by
  unfold lexical_cast_int at hn
  cases hd : s.data with
  | nil =>
    rw [hd] at hn
    cases hn
  | cons c rest =>
    rw [hd] at hn
    simp only [decide_eq_true_eq] at hn
    cases hu : lcast_ret_unsigned (if c = '-' ∨ c = '+' then rest else c :: rest) with
    | none =>
      rw [hu] at hn
      cases hn
    | some out_tmp =>
      rw [hu] at hn
      by_cases hminus : c = '-'
      · simp only [hminus, if_true] at hn
        split at hn
        · cases hn
          omega
        · cases hn
      · simp only [hminus, if_false] at hn
        split at hn
        · cases hn
          omega
        · cases hn

/-- C17: operands of ordering operators are converted to signed 32-bit integers.
For every entry and every condition containing a gt, ge, lt or le clause whose
comparison value is a decimal integer outside the range -2^31 .. 2^31-1,
`processCondition` returns false, even when the mathematical comparison holds:
the entry whose age is "5" does not match age lt "3000000000". -/
theorem processCondition_out_of_range (entry : Entry) (condition : Condition)
    (f : String) (op : Op) (v : String) (z : Int)
    (hmem : (f, (op, v)) ∈ condition.getConditions)
    (hop : op = Op.gt ∨ op = Op.ge ∨ op = Op.lt ∨ op = Op.le)
    (hdec : decimalInteger v = some z)
    (hrange : z < -2147483648 ∨ 2147483647 < z) :
    processCondition entry condition = false ∧
    (∀ s n, lexical_cast_int s = .ok n → -2147483648 ≤ n ∧ n ≤ 2147483647) ∧
    (decimalInteger "5" = some 5 ∧ decimalInteger "3000000000" = some 3000000000 ∧
      (5 : Int) < 3000000000 ∧
      processCondition (Entry.mk [("age", "5")] Status.NORMAL)
        (Condition.mk [("age", (Op.lt, "3000000000"))]) = false) := by
  refine ⟨?_, lexical_cast_int_range, by decide, by decide, by decide, by decide⟩
  have hloop := processConditionLoop_mem_bad entry f op v condition.getConditions hmem hop
    (Or.inl (lexical_cast_int_out_of_range v z hdec hrange))
  unfold processCondition
  cases hres : processConditionLoop entry condition.getConditions with
  | error e => rfl
  | ok result =>
    cases result with
    | false => rfl
    | true => exact absurd hres hloop

/-- Witness for `processCondition_out_of_range`: the entry whose age is "5"
against age lt "2147483648", the first value above the range. -/
theorem processCondition_out_of_range_witness :
    processCondition (Entry.mk [("age", "5")] Status.NORMAL)
      (Condition.mk [("age", (Op.lt, "2147483648"))]) = false :=
  (processCondition_out_of_range (Entry.mk [("age", "5")] Status.NORMAL)
    (Condition.mk [("age", (Op.lt, "2147483648"))]) "age" Op.lt "2147483648" 2147483648
    (by decide) (by decide) (by decide) (by decide)).1

/-- C18: equality and the ordering operators disagree on numerically equal
strings. For the NORMAL entry whose age is "01" against the value "1", and for
the NORMAL entry without an age field against the value "0", the single-clause
conditions with ge and with le both match, while the eq clause does not match
and the ne clause matches. -/
theorem processCondition_eq_vs_ordering :
    (lexical_cast_int "01" = lexical_cast_int "1" ∧
      processCondition (Entry.mk [("age", "01")] Status.NORMAL)
        (Condition.mk [("age", (Op.ge, "1"))]) = true ∧
      processCondition (Entry.mk [("age", "01")] Status.NORMAL)
        (Condition.mk [("age", (Op.le, "1"))]) = true ∧
      processCondition (Entry.mk [("age", "01")] Status.NORMAL)
        (Condition.mk [("age", (Op.eq, "1"))]) = false ∧
      processCondition (Entry.mk [("age", "01")] Status.NORMAL)
        (Condition.mk [("age", (Op.ne, "1"))]) = true) ∧
    ((Entry.mk [] Status.NORMAL).fields.lookup "age" = none ∧
      processCondition (Entry.mk [] Status.NORMAL)
        (Condition.mk [("age", (Op.ge, "0"))]) = true ∧
      processCondition (Entry.mk [] Status.NORMAL)
        (Condition.mk [("age", (Op.le, "0"))]) = true ∧
      processCondition (Entry.mk [] Status.NORMAL)
        (Condition.mk [("age", (Op.eq, "0"))]) = false ∧
      processCondition (Entry.mk [] Status.NORMAL)
        (Condition.mk [("age", (Op.ne, "0"))]) = true) := by
  decide

/-- The first character of a string, taken by `substr(0, 1)`, is the
underscore exactly when the string begins with it. -/
theorem substr_first_eq_underscore (k : String) :
    substr k 0 1 = "_" ↔ k.data.head? = some '_' := by
  have hu : ("_" : String) = String.mk ['_'] := rfl
  rw [hu]
  unfold substr
  rw [String.ext_iff]
  simp only []
  cases k.data with
  | nil => simp
  | cons c cs => simp

/-- The last character of a string, taken by `substr(size - 1, 1)`, is the
underscore exactly when the string ends with it. -/
theorem substr_last_eq_underscore (k : String) :
    substr k (k.length - 1) 1 = "_" ↔ k.data.getLast? = some '_' := by
  have hu : ("_" : String) = String.mk ['_'] := rfl
  have hlen : k.length = k.data.length := rfl
  rw [hu, hlen]
  unfold substr
  rw [String.ext_iff]
  simp only []
  rcases List.eq_nil_or_concat k.data with hnil | ⟨init, last, hconcat⟩
  · simp [hnil]
  · simp [hconcat]

/-- C19: `isHashField(k)` is false for the empty string, and for every non-empty
`k` it is true exactly when `k` equals the STATUS field name or `k` neither
begins nor ends with the underscore character; so a key other than STATUS with
an underscore at one end, and the one-character key "_" when it is not STATUS,
are not hash fields. -/
theorem isHashField_spec (STATUS : String) (k : String) :
    isHashField STATUS "" = false ∧
    (k ≠ "" →
      (isHashField STATUS k = true
        ↔ k = STATUS ∨ (k.data.head? ≠ some '_' ∧ k.data.getLast? ≠ some '_'))) ∧
    (k ≠ STATUS → (k.data.head? = some '_' ∨ k.data.getLast? = some '_') →
      isHashField STATUS k = false) ∧
    (STATUS ≠ "_" → isHashField STATUS "_" = false) ∧
    (isHashField "_status_" "_status_" = true ∧ isHashField "_status_" "name" = true ∧
      isHashField "_status_" "_id" = false ∧ isHashField "_status_" "id_" = false ∧
      isHashField "_status_" "_" = false) := by
  have hmain : k ≠ "" →
      (isHashField STATUS k = true
        ↔ k = STATUS ∨ (k.data.head? ≠ some '_' ∧ k.data.getLast? ≠ some '_')) := by
    intro hk
    unfold isHashField
    rw [if_pos hk]
    simp only [ne_eq, decide_eq_true_eq, substr_first_eq_underscore,
      substr_last_eq_underscore]
    exact Or.comm
  have hempty : ∀ S : String, isHashField S "" = false := by
    intro S
    simp [isHashField]
  refine ⟨hempty STATUS, hmain, ?_, ?_, by decide⟩
  · intro hne hends
    by_cases hk : k = ""
    · rw [hk]
      exact hempty STATUS
    · cases hres : isHashField STATUS k with
      | false => rfl
      | true =>
        rcases (hmain hk).mp hres with heq | ⟨hfirst, hlast⟩
        · exact absurd heq hne
        · rcases hends with h | h
          · exact absurd h hfirst
          · exact absurd h hlast
  · intro hS
    unfold isHashField
    rw [if_pos (by decide)]
    have h1 : substr "_" 0 1 = "_" := by decide
    simp [h1, Ne.symm hS]

end storage
end dev
